import Mathlib

/-!
Verification of the `rim` Rust-toolkit installer against its specification.

This file gives a shallow embedding, in Lean 4, of the parts of the `rim`
code base that the specification claims talk about:

* the toolkit-manifest data model (`rim_common/src/types/tool_info.rs`,
  `rim_common/src/types/toolkit_manifest.rs`);
* the toolkit catalog (`src/core/toolkit.rs`);
* the archive solo-directory descent (`rim_common/src/utils/extraction.rs`);
* the in-process manifest cache (`src/core/toolkit_manifest_ext.rs`);
* the install engine (`src/core/install.rs`).

Pure Rust functions become Lean functions; the effectful install engine is
embedded as a function over an explicit environment of step outcomes; maps
with insertion order (`IndexMap`) become association lists; `PathBuf`
becomes a list of path components.  The theorems at the end of the file
settle each specification claim against these definitions.
-/

namespace Rim

/-! ### Basic string machinery

Rust's `str::cmp` is byte-wise lexicographic comparison; on the version
strings that appear here (ASCII) this agrees with comparison of the char
code points, which is what `lexCmp` implements.
-/

/-- Lexicographic three-way comparison of char lists by code point,
modelling `str::cmp` from Rust's standard library. -/
def lexCmp : List Char → List Char → Ordering
  | [], [] => .eq
  | [], _ :: _ => .lt
  | _ :: _, [] => .gt
  | a :: as, b :: bs =>
    if a.toNat < b.toNat then .lt
    else if b.toNat < a.toNat then .gt
    else lexCmp as bs

/-- Strict lexicographic order (`<` on `str`). -/
def lexLt (a b : List Char) : Bool :=
  match lexCmp a b with
  | .lt => true
  | _ => false

/-- Non-strict lexicographic order (`<=` on `str`). -/
def lexLe (a b : List Char) : Bool :=
  match lexCmp a b with
  | .gt => false
  | _ => true

/-- Model of `trim_version` (src/core/toolkit.rs): drop every leading char
that is not an ASCII digit, `raw.trim_start_matches(|c| !char::is_ascii_digit(&c))`. -/
def trim_version (s : List Char) : List Char := s.dropWhile (fun c => !c.isDigit)

/-! ### Tool data model (`rim_common/src/types/tool_info.rs`) -/

/-- Model of `ToolKind`: classification of an (extracted) tool directory.
The variant order mirrors the source (it is the uninstall priority). -/
inductive ToolKind where
  | dirWithBin
  | installer
  | executables
  | custom
  | plugin
  | cargoTool
  | ruleSet
  | crateSrc
  | unknown
deriving DecidableEq

/-- Model of `ToolSource`: the tagged union of package sources. `Url` and
`Git` urls and `Path` paths are kept as plain strings / component lists,
which is all the embedded functions inspect. -/
inductive ToolSource where
  | restricted (restricted : Bool) (dflt : Option String)
      (source : Option String) (version : Option String)
  | git (git : String) (branch : Option String) (tag : Option String) (rev : Option String)
  | url (version : Option String) (url : String) (filename : Option String)
  | path (version : Option String) (path : List String)
  | version (version : String)
deriving DecidableEq

/-- Model of `ToolInfoDetails`: the detailed record form of a tool entry. -/
structure ToolInfoDetails where
  required : Bool := false
  optional : Bool := false
  gui_only : Bool := false
  skip_vendor : Bool := false
  identifier : Option String := none
  source : Option ToolSource := none
  kind : Option ToolKind := none
  display_name : Option String := none
  obsoletes : List String := []
  requires : List String := []
  conflicts : List String := []
deriving DecidableEq

/-- Model of `ToolInfo`: either a bare version string (a cargo tool) or a
detailed record. -/
inductive ToolInfo where
  | basic (version : String)
  | complex (details : ToolInfoDetails)
deriving DecidableEq

namespace ToolInfo

/-- Model of `ToolInfo::details`. -/
def details : ToolInfo → Option ToolInfoDetails
  | .basic _ => none
  | .complex d => some d

/-- Model of `ToolInfo::is_cargo_tool`: basic entries and `Git`/`Version`
sources are installed through cargo. -/
def is_cargo_tool : ToolInfo → Bool
  | .basic _ => true
  | .complex d =>
    match d.source with
    | some (.git _ _ _ _) | some (.version _) => true
    | _ => false

/-- Model of `ToolInfo::dependencies` (the `requires` list). -/
def dependencies (t : ToolInfo) : List String :=
  (t.details.map (·.requires)).getD []

/-- Model of `ToolInfo::obsoletes`. -/
def obsoletes (t : ToolInfo) : List String :=
  (t.details.map (·.obsoletes)).getD []

/-- Model of `ToolInfo::conflicts`. -/
def conflicts (t : ToolInfo) : List String :=
  (t.details.map (·.conflicts)).getD []

/-- Model of `ToolInfo::kind`. -/
def kind (t : ToolInfo) : Option ToolKind :=
  t.details.bind (·.kind)

/-- Model of `ToolInfo::display_name`. -/
def display_name (t : ToolInfo) : Option String :=
  t.details.bind (·.display_name)

/-- Model of the read-only view of `ToolInfo::restricted_source_mut`:
returns `(source, default)` whenever the source is `Restricted`,
regardless of whether `source` is already filled. -/
def restricted_source : ToolInfo → Option (Option String × Option String)
  | .complex d =>
    match d.source with
    | some (.restricted _ dflt src _) => some (src, dflt)
    | _ => none
  | _ => none

/-- Model of the write half of `ToolInfo::restricted_source_mut`: overwrite
the `source` field of a `Restricted` source, leaving any other tool intact. -/
def set_restricted_source (t : ToolInfo) (v : Option String) : ToolInfo :=
  match t with
  | .complex d =>
    match d.source with
    | some (.restricted r dflt _ ver) =>
      .complex { d with source := some (.restricted r dflt v ver) }
    | _ => t
  | _ => t

end ToolInfo

/-- Runtime component type; `src/core/components.rs` is not part of this
snapshot, the variants are the ones named by the spec (§3). -/
inductive ComponentType where
  | toolchainProfile
  | toolchainComponent
  | tool
deriving DecidableEq

/-- Runtime `Component` record. Only the fields that the embedded functions
read (`name`, `tool_installer`, the component type) are modelled; the struct
itself lives in `src/core/components.rs`, outside this snapshot. -/
structure Component where
  name : String
  typ : ComponentType := .tool
  tool_installer : Option ToolInfo := none
deriving DecidableEq

/-! ### Toolkit catalog (`src/core/toolkit.rs`) -/

/-- Model of `DistPackage` (src/core/parser/dist_manifest.rs). -/
structure DistPackage where
  name : String
  version : String
  edition : Option String := none
  desc : Option String := none
  info : Option String := none
  manifest_url : String
deriving DecidableEq

/-- Model of the `Toolkit` struct. -/
structure Toolkit where
  name : String
  version : String
  edition : Option String := none
  desc : Option String := none
  info : Option String := none
  manifest_url : Option String := none
  components : List Component := []
deriving DecidableEq

/-- Model of `impl PartialEq for Toolkit`: only `name` and `version`
participate in equality. -/
def toolkitEq (a b : Toolkit) : Bool :=
  a.name == b.name && a.version == b.version

/-- Model of `impl From<DistPackage> for Toolkit`. -/
def Toolkit.fromDistPackage (p : DistPackage) : Toolkit :=
  { name := p.name, version := p.version, edition := p.edition,
    desc := p.desc, info := p.info, manifest_url := some p.manifest_url,
    components := [] }

/-- Ordering relation used by the sort in `toolkits_from_server`:
`toolkits.sort_by(|a, b| trim_version(&b.version).cmp(trim_version(&a.version)))`,
that is, `a` precedes `b` when the trimmed version of `b` is
lexicographically at most the trimmed version of `a`. -/
def descByTrimmedVersion (a b : Toolkit) : Prop :=
  lexLe (trim_version b.version.data) (trim_version a.version.data) = true

instance : DecidableRel descByTrimmedVersion := fun _ _ => Bool.decEq _ _

/-- Model of the pure tail of `toolkits_from_server`: after the dist
manifest has been downloaded and parsed into `packages`, the function bails
on an empty package list and otherwise converts each package and sorts with
`Vec::sort_by` (a stable sort) under the comparator above.  A stable sort is
uniquely determined by the comparator, so insertion sort is a faithful
model. -/
def toolkits_from_server (packages : List DistPackage) : Except String (List Toolkit) :=
  if packages.isEmpty then
    .error "distribution manifest contains no packages"
  else
    .ok (List.insertionSort descByTrimmedVersion (packages.map Toolkit.fromDistPackage))

/-- Model of `installable_toolkits` given the downloaded list and the
installed toolkit (if any): drop every toolkit equal (in the
`PartialEq` sense) to the installed one, then move same-edition toolkits to
the front. -/
def installable_toolkits (all_toolkits : List Toolkit) : Option Toolkit → List Toolkit
  | none => all_toolkits
  | some installed =>
    let all := all_toolkits.filter (fun tk => !(toolkitEq tk installed))
    let part := all.partition (fun tk => tk.edition == installed.edition)
    part.1 ++ part.2

/-! ### Semantic versions

The comparison in `latest_installable_toolkit` goes through the external
`semver` crate (`Version::parse` and `Ord`); the following definitions model
that crate's documented behavior: a version is `major.minor.patch` with
optional pre-release and build-metadata identifier lists, numeric fields
reject leading zeros, and the ordering compares major/minor/patch
numerically, then pre-release (absence ranks highest, numeric identifiers
before alphanumeric ones), then build metadata.
-/

/-- Pre-release identifier: numeric or alphanumeric. -/
inductive PreId where
  | num (n : Nat)
  | alnum (s : List Char)
deriving DecidableEq

/-- Parsed semantic version. -/
structure SemVer where
  major : Nat
  minor : Nat
  patch : Nat
  pre : List PreId := []
  build : List (List Char) := []
deriving DecidableEq

/-- Split a char list at every occurrence of `sep`. -/
def splitOnCharAux (sep : Char) : List Char → List Char → List (List Char)
  | [], acc => [acc.reverse]
  | c :: rest, acc =>
    if c == sep then acc.reverse :: splitOnCharAux sep rest []
    else splitOnCharAux sep rest (c :: acc)

/-- Split a char list on a separator char. -/
def splitOnChar (sep : Char) (s : List Char) : List (List Char) :=
  splitOnCharAux sep s []

/-- Split at the first occurrence of `sep`, returning the part before it and
(optionally) the part after it. -/
def splitAtFirst (sep : Char) : List Char → List Char × Option (List Char)
  | [] => ([], none)
  | c :: rest =>
    if c == sep then ([], some rest)
    else
      let r := splitAtFirst sep rest
      (c :: r.1, r.2)

/-- Numeric value of a digit list. -/
def natOfDigits (s : List Char) : Nat :=
  s.foldl (fun n c => n * 10 + (c.toNat - '0'.toNat)) 0

/-- Parse a numeric version field: non-empty, all digits, no leading zero. -/
def parseNumField (s : List Char) : Option Nat :=
  if s.isEmpty then none
  else if !s.all Char.isDigit then none
  else if s.length > 1 && s.head? == some '0' then none
  else some (natOfDigits s)

/-- Chars allowed in pre-release/build identifiers. -/
def isIdentChar (c : Char) : Bool := c.isAlphanum || c == '-'

/-- Parse one pre-release identifier. -/
def parsePreId (s : List Char) : Option PreId :=
  if s.isEmpty then none
  else if !s.all isIdentChar then none
  else if s.all Char.isDigit then
    if s.length > 1 && s.head? == some '0' then none
    else some (.num (natOfDigits s))
  else some (.alnum s)

/-- Parse one build-metadata identifier (leading zeros allowed). -/
def parseBuildId (s : List Char) : Option (List Char) :=
  if s.isEmpty || !s.all isIdentChar then none else some s

/-- Parse a full semantic version string. -/
def parseSemVer (s : List Char) : Option SemVer :=
  let buildSplit := splitAtFirst '+' s
  let preSplit := splitAtFirst '-' buildSplit.1
  match splitOnChar '.' preSplit.1 with
  | [ma, mi, pa] => do
    let major ← parseNumField ma
    let minor ← parseNumField mi
    let patch ← parseNumField pa
    let pre ← match preSplit.2 with
      | none => some []
      | some p => (splitOnChar '.' p).mapM parsePreId
    let build ← match buildSplit.2 with
      | none => some []
      | some b => (splitOnChar '.' b).mapM parseBuildId
    some { major := major, minor := minor, patch := patch, pre := pre, build := build }
  | _ => none

/-- Compare two pre-release identifiers: numeric before alphanumeric,
numeric by value, alphanumeric lexically. -/
def preIdCmp : PreId → PreId → Ordering
  | .num a, .num b => compare a b
  | .num _, .alnum _ => .lt
  | .alnum _, .num _ => .gt
  | .alnum a, .alnum b => lexCmp a b

/-- Compare identifier lists element-wise; a strict prefix ranks lower. -/
def preListCmp : List PreId → List PreId → Ordering
  | [], [] => .eq
  | [], _ :: _ => .lt
  | _ :: _, [] => .gt
  | a :: as, b :: bs =>
    match preIdCmp a b with
    | .eq => preListCmp as bs
    | o => o

/-- Compare pre-release lists: an empty pre-release (a normal version) ranks
above any non-empty one. -/
def preCmp (a b : List PreId) : Ordering :=
  if a.isEmpty && b.isEmpty then .eq
  else if a.isEmpty then .gt
  else if b.isEmpty then .lt
  else preListCmp a b

/-- Compare one build-metadata identifier pair. -/
def buildIdCmp (a b : List Char) : Ordering :=
  if a.all Char.isDigit && b.all Char.isDigit then
    match compare (natOfDigits a) (natOfDigits b) with
    | .eq => compare a.length b.length
    | o => o
  else if a.all Char.isDigit then .lt
  else if b.all Char.isDigit then .gt
  else lexCmp a b

/-- Compare build-metadata identifier lists. -/
def buildListCmp : List (List Char) → List (List Char) → Ordering
  | [], [] => .eq
  | [], _ :: _ => .lt
  | _ :: _, [] => .gt
  | a :: as, b :: bs =>
    match buildIdCmp a b with
    | .eq => buildListCmp as bs
    | o => o

/-- Compare build metadata: absence ranks lowest. -/
def buildCmp (a b : List (List Char)) : Ordering :=
  if a.isEmpty && b.isEmpty then .eq
  else if a.isEmpty then .lt
  else if b.isEmpty then .gt
  else buildListCmp a b

/-- Total order on parsed versions, after the `semver` crate's `Ord`. -/
def semverCmp (a b : SemVer) : Ordering :=
  match compare a.major b.major with
  | .eq =>
    match compare a.minor b.minor with
    | .eq =>
      match compare a.patch b.patch with
      | .eq =>
        match preCmp a.pre b.pre with
        | .eq => buildCmp a.build b.build
        | o => o
      | o => o
    | o => o
  | o => o

/-- Strict `semver` comparison (`<` on `semver::Version`). -/
def semverLt (a b : SemVer) : Bool := semverCmp a b == .lt

/-- Model of `latest_installable_toolkit` given the downloaded (sorted)
toolkit list: find the first toolkit of the installed edition, parse both
trimmed version strings through `semver`, and return it only when its
version is strictly greater than the installed one.  Parse failures become
`Except.error` (the `?` operator in the source). -/
def latest_installable_toolkit (remote : List Toolkit) (installed : Toolkit) :
    Except Unit (Option Toolkit) :=
  match remote.find? (fun tk => tk.edition == installed.edition) with
  | none => .ok none
  | some maybe_latest =>
    match parseSemVer (trim_version installed.version.data) with
    | none => .error ()
    | some cur_version =>
      match parseSemVer (trim_version maybe_latest.version.data) with
      | none => .error ()
      | some target_version =>
        .ok (if semverLt cur_version target_version then some maybe_latest else none)

/-! ### Solo-directory descent (`rim_common/src/utils/extraction.rs`)

The extracted tree is modelled as a tree of named entries; `walk_dir(root,
false)` returns the direct children of a directory (files and directories
alike), in directory order.  Paths are lists of components relative to the
extraction root, so on entry to the descent the accumulator is `[]`.
-/

/-- Filesystem entry: a plain file or a directory with its children in
directory order. -/
inductive Entry where
  | file (name : String)
  | dir (name : String) (children : List Entry)

/-- Name of an entry (`Path::file_name`). -/
def entryName : Entry → String
  | .file n => n
  | .dir n _ => n

/-- True for directory entries (`Path::is_dir`). -/
def entryIsDir : Entry → Bool
  | .file _ => false
  | .dir _ _ => true

/-- Model of the recursive `inner_` of `extract_then_skip_solo_dir`:
if the current root is not a directory return its path; otherwise list its
children; if there is exactly one child, return the current path when the
child's name equals the stop keyword, and recurse into the child (file or
directory) otherwise; with zero or several children return the current
path. -/
def skipSoloDir (stop : Option String) : Entry → List String → List String
  | .file _, acc => acc
  | .dir _ children, acc =>
    match children with
    | [e] =>
      if stop = some (entryName e) then acc
      else skipSoloDir stop e (acc ++ [entryName e])
    | _ => acc
termination_by structural e => e

/-- Transcription of the specification's contract for
`extract_then_skip_solo_dir`: descend while each level contains exactly one
entry **that is a directory**; when the solo directory is named like the
stop keyword return its parent; otherwise return the deepest solo
directory. -/
def specSkipSoloDir (stop : Option String) : Entry → List String → List String
  | .file _, acc => acc
  | .dir _ children, acc =>
    match children with
    | [.dir n cs] =>
      if stop = some n then acc
      else specSkipSoloDir stop (.dir n cs) (acc ++ [n])
    | _ => acc
termination_by structural e => e

/-- Condition under which the claimed contract and the code agree: along the
solo-entry chain (stopping at the keyword), every solo entry is a
directory. -/
def soloChainAllDirs (stop : Option String) : Entry → Prop
  | .file _ => True
  | .dir _ children =>
    match children with
    | [e] =>
      if stop = some (entryName e) then True
      else entryIsDir e = true ∧ soloChainAllDirs stop e
    | _ => True
termination_by structural e => e

/-! ### Manifest loading and `package_root`

`ToolkitManifest::load` (rim_common/src/types/toolkit_manifest.rs) stores
the full path of the manifest **file** in the `path` field; `package_root`
(src/core/toolkit_manifest_ext.rs) returns that stored path unchanged when
it is present.  Only the fields these two functions touch are modelled; a
path is a list of components.
-/

/-- Minimal model of `ToolkitManifest`: the `path` field set by `load`,
plus the product name/version consulted by the debug fallback of
`package_root`. -/
structure ToolkitManifest where
  name : Option String := none
  version : Option String := none
  path : Option (List String) := none
deriving DecidableEq

/-- Model of `ToolkitManifest::load(path)`: parse the file (parsing is not
relevant here) and record the full file path in the `path` field. -/
def ToolkitManifest.load (m : ToolkitManifest) (p : List String) : ToolkitManifest :=
  { m with path := some p }

/-- Model of `ToolkitManifestExt::package_root`: return the stored `path`
unchanged when present; otherwise fall back to the developer cache dir (in
debug builds) or to the parent dir of the current executable.  The two
fallback directories are passed in since they come from the environment. -/
def package_root (m : ToolkitManifest) (isDebugBuild : Bool)
    (devCacheDir exeParentDir : List String) : List String :=
  match m.path with
  | some p => p
  | none => if isDebugBuild then devCacheDir else exeParentDir

/-- Parent directory of a path (`Path::parent`, total on our model). -/
def parentDir (p : List String) : List String := p.dropLast

/-! ### In-process manifest cache (`src/core/toolkit_manifest_ext.rs`)

`get_toolkit_manifest` caches loaded manifests in a function-local
`static CACHED_MANIFESTS` map keyed by the optional request URL.
`clear_cached_manifest` declares **its own** function-local
`static CACHED_MANIFESTS` — in Rust a `static` inside a function body is a
distinct item per function — so the two functions operate on two different
maps.  The state below therefore carries both maps.
-/

/-- Cache contents: both function-local `CACHED_MANIFESTS` statics.
`getCache` is the one inside `get_toolkit_manifest`, `clearCache` the one
inside `clear_cached_manifest`. A manifest is represented by its raw
content string. -/
structure ManifestCache where
  getCache : List (Option String × String) := []
  clearCache : List (Option String × String) := []
deriving DecidableEq

/-- Lookup in an association list (`HashMap::get`). -/
def assocFind (k : Option String) : List (Option String × String) → Option String
  | [] => none
  | p :: rest => if p.1 == k then some p.2 else assocFind k rest

/-- Remove a key from an association list (`HashMap::remove`). -/
def assocRemove (k : Option String) : List (Option String × String) → List (Option String × String)
  | [] => []
  | p :: rest => if p.1 == k then rest else p :: assocRemove k rest

/-- Model of `get_toolkit_manifest(url, ..)`: return the cached manifest for
`url` when present, otherwise load it from its source (`loader`, covering
both the download and the baked-in branches) and insert it into the cache
local to this function. -/
def get_toolkit_manifest (loader : Option String → String) (st : ManifestCache)
    (url : Option String) : String × ManifestCache :=
  match assocFind url st.getCache with
  | some m => (m, st)
  | none =>
    let m := loader url
    (m, { st with getCache := st.getCache ++ [(url, m)] })

/-- Model of `clear_cached_manifest(url)`: remove `url` from the
`CACHED_MANIFESTS` static declared inside `clear_cached_manifest` itself —
which is a different static from the one `get_toolkit_manifest` uses. -/
def clear_cached_manifest (st : ManifestCache) (url : Option String) : ManifestCache :=
  { st with clearCache := assocRemove url st.clearCache }

/-! ### `fill_missing_package_source` (`src/core/toolkit_manifest_ext.rs`)

The manifest's `tools.target` table is a list of `(triple, tool map)`
pairs, each tool map a list of `(name, ToolInfo)` pairs in insertion order.
The function walks every tool of every target; for a tool whose name has a
matching entry in `components` and whose source is `Restricted` it invokes
the callback and writes the returned string into the manifest entry and,
when the component's embedded tool info also carries a restricted source,
into that component.  The embedding additionally returns the trace of
callback invocations (display name and default passed to each call).
-/

/-- One target's tool map. -/
abbrev ToolMap := List (String × ToolInfo)

/-- Replace the first list element satisfying `p` by `f` of it. -/
def updateFirst (p : Component → Bool) (f : Component → Component) :
    List Component → List Component
  | [] => []
  | c :: rest => if p c then f c :: rest else c :: updateFirst p f rest

/-- Write `new_val` into a component's embedded restricted source, when it
has one (the inner `if let` of the source). -/
def componentWithFilledSource (new_val : String) (c : Component) : Component :=
  match c.tool_installer with
  | some ti =>
    match ti.restricted_source with
    | some _ => { c with tool_installer := some (ti.set_restricted_source (some new_val)) }
    | none => c
  | none => c

/-- State threaded by `fill_missing_package_source`: the updated component
list and the trace of callback invocations. -/
structure FillState where
  comps : List Component
  trace : List (String × Option String) := []

/-- Process one `(name, info)` manifest entry of the walk. -/
def fillStep (cb : String → Option String → String) (st : FillState)
    (name : String) (info : ToolInfo) : ToolInfo × FillState :=
  match st.comps.find? (fun c => c.name == name) with
  | none => (info, st)
  | some _ =>
    let dname := (info.display_name).getD name
    match info.restricted_source with
    | some sd =>
      let new_val := cb dname sd.2
      let info' := info.set_restricted_source (some new_val)
      let comps' := updateFirst (fun c => c.name == name)
        (componentWithFilledSource new_val) st.comps
      (info', { comps := comps', trace := st.trace ++ [(dname, sd.2)] })
    | none => (info, st)

/-- Walk one tool map, threading the component/trace state. -/
def fillToolMap (cb : String → Option String → String) :
    ToolMap → FillState → ToolMap × FillState
  | [], st => ([], st)
  | (name, info) :: rest, st =>
    let r := fillStep cb st name info
    let rr := fillToolMap cb rest r.2
    ((name, r.1) :: rr.1, rr.2)

/-- Model of `fill_missing_package_source`: walk every target's tool map in
order, returning the updated targets, updated components and the callback
invocation trace. -/
def fill_missing_package_source (cb : String → Option String → String) :
    List (String × ToolMap) → FillState → List (String × ToolMap) × FillState
  | [], st => ([], st)
  | (triple, tools) :: rest, st =>
    let r := fillToolMap cb tools st
    let rr := fill_missing_package_source cb rest r.2
    ((triple, r.1) :: rr.1, rr.2)

/-! ### Install engine (`src/core/install.rs`)

`InstallConfiguration::install` is async and effectful; the embedding makes
the outcome of every externally-effectful step a parameter (an
`InstallEnv`), threads an explicit run state, and returns
`Except errorMessage RunState` — `Except.error` corresponds to `install`
returning `Err` to its caller, while collected failures live in the
returned state's `InstallationErrors`.  Progress-handler operations
(`start_master`, `inc_progress`, `finish_master`) are modelled as
infallible no-ops (the CLI handler only draws a bar).
-/

/-- Model of `InstallationErrors`: the per-run error aggregate. -/
structure InstallationErrors where
  tool_errors : List (String × String) := []
  rust_error : Option String := none
  step_errors : List (String × String) := []
deriving DecidableEq

/-- Model of `InstallationErrors::add_tool_error`. -/
def addToolError (e : InstallationErrors) (name msg : String) : InstallationErrors :=
  { e with tool_errors := e.tool_errors ++ [(name, msg)] }

/-- Model of `InstallationErrors::add_rust_error`. -/
def addRustError (e : InstallationErrors) (msg : String) : InstallationErrors :=
  { e with rust_error := some msg }

/-- Model of `InstallationErrors::add_step_error`. -/
def addStepError (e : InstallationErrors) (step msg : String) : InstallationErrors :=
  { e with step_errors := e.step_errors ++ [(step, msg)] }

/-- Model of `InstallationErrors::has_errors`. -/
def hasErrors (e : InstallationErrors) : Bool :=
  !e.tool_errors.isEmpty || e.rust_error.isSome || !e.step_errors.isEmpty

/-- Outcome of each externally-effectful step of a run: `none` is success,
`some msg` is the failure message of that step. -/
structure InstallEnv where
  setup_result : Option String
  env_vars_result : Option String
  cargo_config_result : Option String
  tool_result : String → Option String
  rust_result : Option String
  add_path_result : Option String
  write_record_result : Option String

/-- Environment in which every step succeeds. -/
def allOkEnv : InstallEnv :=
  { setup_result := none, env_vars_result := none, cargo_config_result := none,
    tool_result := fun _ => none, rust_result := none, add_path_result := none,
    write_record_result := none }

/-- Run state threaded through the phases: the error aggregate, the
`toolchain_is_installed` flag, and (for the theorems) the lists of tools
that were attempted and that were installed successfully. -/
structure RunState where
  errors : InstallationErrors := {}
  toolchain_is_installed : Bool := false
  installed_tools : List String := []
  attempted_tools : List String := []

/-- Sorted conflicting pair, so that `(A, B)` and `(B, A)` coincide. -/
def conflictPair (a b : String) : String × String :=
  if a < b then (a, b) else (b, a)

/-- Model of `HashSet::insert` on the collected pair list: keep the list
duplicate-free. -/
def insertConflict (acc : List (String × String)) (pair : String × String) :
    List (String × String) :=
  if acc.contains pair then acc else acc ++ [pair]

/-- Pair collection loop of `reject_conflicting_tools`: for every selected
tool, every name in its `conflicts` list that is itself a selected tool
contributes a sorted pair. -/
def collectConflicts (tools : ToolMap) : List (String × String) :=
  tools.foldl (fun acc p =>
    p.2.conflicts.foldl (fun acc c =>
      if tools.any (fun q => q.1 == c) then insertConflict acc (conflictPair p.1 c)
      else acc) acc) []

/-- Error message listing the conflicting pairs. -/
def conflict_error_message (conflicts : List (String × String)) : String :=
  "conflict detected: " ++ String.intercalate ", "
    (conflicts.map (fun pr => pr.1 ++ " conflicts with " ++ pr.2))

/-- Model of `reject_conflicting_tools`: collect the unordered conflicting
pairs declared between selected tools and fail when any exist.  The source
deduplicates in a `HashSet` (whose iteration order is unspecified); the
model keeps first-encounter order, which only affects the message text. -/
def reject_conflicting_tools (tools : ToolMap) : Except String Unit :=
  if (collectConflicts tools).isEmpty then .ok ()
  else .error (conflict_error_message (collectConflicts tools))

/-- True when installing the tool needs the toolchain: the filter of
`install_tools_`, `t.is_cargo_tool() || t.dependencies().iter().any(|s| s == "rust")`. -/
def requiresToolchain (t : ToolInfo) : Bool :=
  t.is_cargo_tool || t.dependencies.any (· == "rust")

/-- Modelled from the spec: `topological_sorted`
(src/core/dependency_handler.rs, not included in this snapshot) orders a
tool map so that, after the caller's `reverse`, every tool comes after the
tools it `requires` (§4.7/§5: reverse topological order of the `requires`
graph, ties in declaration order; a cycle leaves the remaining tools in
declaration order).  `topoEmit` emits dependencies-first, so its reverse is
what `topological_sorted` returns. -/
def topoEmit : Nat → ToolMap → ToolMap → ToolMap
  | 0, remaining, acc => acc ++ remaining
  | fuel + 1, remaining, acc =>
    let isReady := fun (p : String × ToolInfo) =>
      p.2.dependencies.all (fun d => !(remaining.any (fun q => q.1 == d)))
    let ready := remaining.filter isReady
    let rest := remaining.filter (fun p => !(isReady p))
    if ready.isEmpty then acc ++ remaining
    else topoEmit fuel rest (acc ++ ready)

/-- Modelled from the spec: see `topoEmit`. -/
def topological_sorted (tools : ToolMap) : ToolMap :=
  (topoEmit tools.length tools []).reverse

/-- Message recorded for tools skipped because the toolchain is missing
(`t!("no_toolchain_installed")`). -/
def noToolchainMsg : String := "no toolchain installed"

/-- Step-name constants used by `install` when collecting step errors. -/
def envVarsStepName : String := "configure environment variables"

/-- Step name for the cargo-config step. -/
def cargoConfigStepName : String := "configure cargo"

/-- Step name for writing the installation record. -/
def writeRecordStepName : String := "write installation record"

/-- Step name for the add-to-PATH step. -/
def addPathStepName : String := "add to PATH"

/-- One iteration of the per-tool install loop of `install_tools_`: attempt
the tool, recording either a success (the tool gets a fingerprint record)
or a collected per-tool error. -/
def installToolStep (env : InstallEnv) (s : RunState) (p : String × ToolInfo) : RunState :=
  match env.tool_result p.1 with
  | none =>
    { s with installed_tools := s.installed_tools ++ [p.1],
             attempted_tools := s.attempted_tools ++ [p.1] }
  | some e =>
    { s with errors := addToolError s.errors p.1 e,
             attempted_tools := s.attempted_tools ++ [p.1] }

/-- Model of `install_tools_(use_rust, tools, weight, errors)`: filter the
map down to the tools of this phase; when the phase needs the toolchain but
it is not installed, record a per-tool error for each and stop; otherwise
install the phase's tools in topologically sorted + reversed order,
collecting per-tool failures, then write the installation record. -/
def install_tools_ (env : InstallEnv) (use_rust : Bool) (tools : ToolMap)
    (st : RunState) : RunState :=
  let to_install := tools.filter (fun p => requiresToolchain p.2 == use_rust)
  if use_rust && !st.toolchain_is_installed && !to_install.isEmpty then
    { st with errors := to_install.foldl (fun es p => addToolError es p.1 noToolchainMsg) st.errors }
  else if to_install.isEmpty then st
  else
    let st1 := ((topological_sorted to_install).reverse).foldl (installToolStep env) st
    match env.write_record_result with
    | none => st1
    | some e => { st1 with errors := addStepError st1.errors writeRecordStepName e }

/-- Model of `install_rust`: on toolchain-installer success, add cargo's bin
dir to PATH (collecting a step error on failure, and only marking
`toolchain_is_installed` when that succeeded), record the rust entry and
write the record; on failure, record a `rust` entry in the aggregate.  The
function itself returns `Ok` either way. -/
def install_rust (env : InstallEnv) (st : RunState) : RunState :=
  match env.rust_result with
  | none =>
    let st1 :=
      match env.add_path_result with
      | none => { st with toolchain_is_installed := true }
      | some e => { st with errors := addStepError st.errors addPathStepName e }
    match env.write_record_result with
    | none => st1
    | some e => { st1 with errors := addStepError st1.errors writeRecordStepName e }
  | some e => { st with errors := addRustError st.errors e }

/-- Modelled from the spec: `split_components`
(src/core/components.rs, not included in this snapshot) partitions the
user's selection into toolchain components and the tool map (§3: a
`Component` is a `ToolchainProfile`, a `ToolchainComponent`, or a `Tool`
with an embedded `ToolInfo`). -/
def split_components (components : List Component) : List String × ToolMap :=
  (components.filterMap (fun c =>
      match c.typ with
      | .toolchainProfile | .toolchainComponent => some c.name
      | .tool => none),
   components.filterMap (fun c =>
      match c.typ, c.tool_installer with
      | .tool, some info => some (c.name, info)
      | _, _ => none))

/-- Run state after the `config_env_vars` and `config_cargo` steps of a
fresh run: their failures are collected as step errors. -/
def preSteps (env : InstallEnv) : RunState :=
  let st0 : RunState := {}
  let st1 :=
    match env.env_vars_result with
    | none => st0
    | some e => { st0 with errors := addStepError st0.errors envVarsStepName e }
  match env.cargo_config_result with
  | none => st1
  | some e => { st1 with errors := addStepError st1.errors cargoConfigStepName e }

/-- Model of `InstallConfiguration::install`: split the selection, reject
conflicting tools (before any installation IO), run setup (a failure here
aborts), then run the env-var, cargo-config, early-tools, toolchain and
late-tools steps, collecting their failures into the aggregate, and return
`Ok` with the final state. -/
def install (env : InstallEnv) (components : List Component) : Except String RunState :=
  let tools := (split_components components).2
  match reject_conflicting_tools tools with
  | .error e => .error e
  | .ok _ =>
    match env.setup_result with
    | some e => .error e
    | none =>
      .ok (install_tools_ env true tools
            (install_rust env
              (install_tools_ env false tools (preSteps env))))

/-! ### Specification-side formulations used in the claim statements -/

/-- Callback invocations as the claim words them: exactly the tools whose
source is `Restricted` with `source = None` and whose name appears among
the selected component names. -/
def claimedInvocations (targets : List (String × ToolMap)) (names : List String) :
    List (String × Option String) :=
  ((targets.map Prod.snd).flatten).filterMap (fun p =>
    match p.2.restricted_source with
    | some (none, dflt) =>
      if names.contains p.1 then some ((p.2.display_name).getD p.1, dflt) else none
    | _ => none)

/-- Callback invocations as the code performs them: every tool with a
`Restricted` source (whether or not `source` is already filled) whose name
appears among the selected component names. -/
def codeInvocations : ToolMap → List String → List (String × Option String)
  | [], _ => []
  | (name, info) :: rest, names =>
    (match info.restricted_source with
     | some sd =>
       if names.contains name then [((info.display_name).getD name, sd.2)] else []
     | none => []) ++ codeInvocations rest names

/-- The updated tool map: every selected restricted tool has its source
overwritten with the callback's answer. -/
def codeUpdatedToolMap (cb : String → Option String → String) (tools : ToolMap)
    (names : List String) : ToolMap :=
  tools.map (fun p =>
    (p.1,
     match p.2.restricted_source with
     | some sd =>
       if names.contains p.1 then
         p.2.set_restricted_source (some (cb ((p.2.display_name).getD p.1) sd.2))
       else p.2
     | none => p.2))

/-- The component writes as the code performs them: one
`(component name, new source string)` pair per callback invocation, in
manifest walk order — the value is the callback's answer for that tool. -/
def codeComponentWrites (cb : String → Option String → String) :
    ToolMap → List String → List (String × String)
  | [], _ => []
  | (name, info) :: rest, names =>
    (match info.restricted_source with
     | some sd =>
       if names.contains name then [(name, cb ((info.display_name).getD name) sd.2)]
       else []
     | none => []) ++ codeComponentWrites cb rest names

/-- Apply a list of component writes in order: each write fills the
embedded restricted source of the **first** component bearing the written
name (a no-op on components whose embedded info carries no restricted
source, mirroring the inner `if let` of the code). -/
def applyComponentWrites : List (String × String) → List Component → List Component
  | [], comps => comps
  | w :: rest, comps =>
    applyComponentWrites rest
      (updateFirst (fun c => c.name == w.1) (componentWithFilledSource w.2) comps)

/-- Existence of a conflict pair within the selected tool set: some selected
tool `a` lists a `b` in `conflicts` that is also selected. -/
def hasSelectedConflictPair (tools : ToolMap) : Prop :=
  ∃ a ia b, (a, ia) ∈ tools ∧ b ∈ ia.conflicts ∧ tools.any (fun q => q.1 == b) = true

/-! ### Concrete instances used by witnesses and counterexamples -/

/-- Catalog package with version `1.9.0`. -/
def pkgNine : DistPackage :=
  { name := "A", version := "1.9.0", edition := some "community",
    manifest_url := "https://example.com/a-1.9.0" }

/-- Catalog package with version `1.10.0`. -/
def pkgTen : DistPackage :=
  { name := "A", version := "1.10.0", edition := some "community",
    manifest_url := "https://example.com/a-1.10.0" }

/-- Installed toolkit at version `1.2.0`. -/
def tkInstalled : Toolkit :=
  { name := "A", version := "1.2.0", edition := some "community" }

/-- Remote toolkit at version `1.3.0` of the same edition. -/
def tkNewer : Toolkit :=
  { name := "A", version := "1.3.0", edition := some "community",
    manifest_url := some "https://example.com/a-1.3.0" }

/-- Remote toolkit equal to the installed one in name and version but with a
different edition, description and manifest URL. -/
def tkSameNameVersion : Toolkit :=
  { name := "A", version := "1.2.0", edition := some "education",
    desc := some "other desc", manifest_url := some "https://example.com/other" }

/-- Restricted tool whose source is already filled. -/
def c9tool : ToolInfo :=
  .complex { source := some (.restricted true none (some "https://already-filled") none) }

/-- Component matching `c9tool`. -/
def c9comp : Component := { name := "t", typ := .tool, tool_installer := some c9tool }

/-- Manifest targets table containing just `c9tool`. -/
def c9targets : List (String × ToolMap) :=
  [("x86_64-unknown-linux-gnu", [("t", c9tool)])]

/-- Tool `a`, conflicting with `b`. -/
def confToolA : ToolInfo :=
  .complex { source := some (.url none "https://example.com/a.zip" none),
             conflicts := ["b"] }

/-- Tool `b`, the target of `a`'s conflict. -/
def confToolB : ToolInfo :=
  .complex { source := some (.url none "https://example.com/b.zip" none) }

/-- Selection containing both sides of a declared conflict. -/
def compsConflicting : List Component :=
  [{ name := "a", typ := .tool, tool_installer := some confToolA },
   { name := "b", typ := .tool, tool_installer := some confToolB }]

/-- Selection containing only one side of the declared conflict. -/
def compsOneSide : List Component :=
  [{ name := "a", typ := .tool, tool_installer := some confToolA }]

/-- An early-phase url tool. -/
def urlTool : ToolInfo :=
  .complex { source := some (.url none "https://example.com/t.zip" none) }

/-- A late-phase cargo tool (bare version string). -/
def cargoTool : ToolInfo := .basic "0.1.0"

/-- Selection with a toolchain profile, an early url tool and a late cargo
tool. -/
def compsMixed : List Component :=
  [{ name := "rust-toolchain", typ := .toolchainProfile },
   { name := "t", typ := .tool, tool_installer := some urlTool },
   { name := "c", typ := .tool, tool_installer := some cargoTool }]

/-- Environment in which the env-var and cargo-config steps, the download of
tool `t`, and the toolchain installation all fail. -/
def failingEnv : InstallEnv :=
  { setup_result := none, env_vars_result := some "cannot write rc file",
    cargo_config_result := some "cannot write config.toml",
    tool_result := fun n => if n == "t" then some "download failed" else none,
    rust_result := some "rustup exited with code 1",
    add_path_result := none, write_record_result := none }

/-- Environment in which only the toolchain installation fails. -/
def rustFailEnv : InstallEnv :=
  { allOkEnv with rust_result := some "rustup exited with code 1" }

/-! ## Theorems -/

/-! ### Order properties of the lexicographic comparison -/

theorem lexCmp_swap : ∀ a b : List Char, lexCmp b a = (lexCmp a b).swap := by
  intro a
  induction a with
  | nil => intro b; cases b <;> rfl
  | cons x xs ih =>
    intro b
    cases b with
    | nil => rfl
    | cons y ys =>
      simp only [lexCmp]
      by_cases h1 : x.toNat < y.toNat
      · rw [if_neg (by omega : ¬ y.toNat < x.toNat), if_pos h1, if_pos h1]
        rfl
      · by_cases h2 : y.toNat < x.toNat
        · rw [if_pos h2, if_neg h1, if_pos h2]
          rfl
        · rw [if_neg h2, if_neg h1, if_neg h1, if_neg h2, ih ys]

theorem lexLe_eq_true_iff (a b : List Char) : lexLe a b = true ↔ lexCmp a b ≠ .gt := by
  unfold lexLe
  cases h : lexCmp a b <;> simp [h]

theorem lexLe_total (a b : List Char) : lexLe a b = true ∨ lexLe b a = true := by
  by_cases h : lexCmp a b = .gt
  · right
    rw [lexLe_eq_true_iff, lexCmp_swap a b, h]
    simp [Ordering.swap]
  · left
    rw [lexLe_eq_true_iff]
    exact h

theorem lexCmp_ne_gt_trans :
    ∀ a b c : List Char, lexCmp a b ≠ .gt → lexCmp b c ≠ .gt → lexCmp a c ≠ .gt := by
  intro a
  induction a with
  | nil =>
    intro b c _ _
    cases c <;> simp [lexCmp]
  | cons x xs ih =>
    intro b c h1 h2
    cases b with
    | nil => simp [lexCmp] at h1
    | cons y ys =>
      cases c with
      | nil => simp [lexCmp] at h2
      | cons z zs =>
        simp only [lexCmp] at h1 h2 ⊢
        rcases Nat.lt_trichotomy x.toNat y.toNat with hxy | hxy | hxy
        · rcases Nat.lt_trichotomy y.toNat z.toNat with hyz | hyz | hyz
          · rw [if_pos (by omega : x.toNat < z.toNat)]
            decide
          · rw [if_pos (by omega : x.toNat < z.toNat)]
            decide
          · exfalso
            rw [if_neg (by omega : ¬ y.toNat < z.toNat), if_pos hyz] at h2
            exact h2 rfl
        · rcases Nat.lt_trichotomy y.toNat z.toNat with hyz | hyz | hyz
          · rw [if_pos (by omega : x.toNat < z.toNat)]
            decide
          · rw [if_neg (by omega : ¬ x.toNat < z.toNat), if_neg (by omega : ¬ z.toNat < x.toNat)]
            rw [if_neg (by omega : ¬ x.toNat < y.toNat), if_neg (by omega : ¬ y.toNat < x.toNat)]
              at h1
            rw [if_neg (by omega : ¬ y.toNat < z.toNat), if_neg (by omega : ¬ z.toNat < y.toNat)]
              at h2
            exact ih ys zs h1 h2
          · exfalso
            rw [if_neg (by omega : ¬ y.toNat < z.toNat), if_pos hyz] at h2
            exact h2 rfl
        · exfalso
          rw [if_neg (by omega : ¬ x.toNat < y.toNat), if_pos hxy] at h1
          exact h1 rfl

theorem lexLe_trans {a b c : List Char} (h1 : lexLe a b = true) (h2 : lexLe b c = true) :
    lexLe a c = true := by
  rw [lexLe_eq_true_iff] at h1 h2 ⊢
  exact lexCmp_ne_gt_trans a b c h1 h2

/-! ### C6 — the catalog sort -/

/-- C6 counterexample: the catalog `[1.10.0, 1.9.0]` is returned with
`1.9.0` first, although `1.10.0` is strictly greater under semver — so the
result is not sorted descending under semver and the claim's own example
(`1.10.0` first) fails on the code. -/
theorem c6_counterexample :
    toolkits_from_server [pkgTen, pkgNine] =
      .ok [Toolkit.fromDistPackage pkgNine, Toolkit.fromDistPackage pkgTen] ∧
    (Toolkit.fromDistPackage pkgNine).version = "1.9.0" ∧
    (Toolkit.fromDistPackage pkgTen).version = "1.10.0" ∧
    parseSemVer (trim_version "1.9.0".data) = some { major := 1, minor := 9, patch := 0 } ∧
    parseSemVer (trim_version "1.10.0".data) = some { major := 1, minor := 10, patch := 0 } ∧
    semverLt { major := 1, minor := 9, patch := 0 } { major := 1, minor := 10, patch := 0 }
      = true :=
  ⟨rfl, rfl, rfl, rfl, rfl, rfl⟩

/-- C6 (amended): `toolkits_from_server` returns the catalog packages
stably sorted in descending byte-lexicographic order of their version
strings after trimming non-digit prefixes (not semver order). -/
theorem c6_amended :
    ∀ (packages : List DistPackage) (result : List Toolkit),
      toolkits_from_server packages = .ok result →
      List.Sorted descByTrimmedVersion result ∧
        result.Perm (packages.map Toolkit.fromDistPackage) := by
  intro packages result h
  unfold toolkits_from_server at h
  split at h
  · simp at h
  · rw [Except.ok.injEq] at h
    subst h
    haveI : IsTotal Toolkit descByTrimmedVersion := ⟨fun a b => by
      unfold descByTrimmedVersion
      rcases lexLe_total (trim_version b.version.data) (trim_version a.version.data) with h | h
      · exact Or.inl h
      · exact Or.inr h⟩
    haveI : IsTrans Toolkit descByTrimmedVersion := ⟨fun a b c hab hbc => by
      unfold descByTrimmedVersion at *
      exact lexLe_trans hbc hab⟩
    exact ⟨List.sorted_insertionSort _ _, List.perm_insertionSort _ _⟩

/-- C6 witness: the amended sort property at the two-package catalog. -/
theorem c6_witness :
    List.Sorted descByTrimmedVersion
        [Toolkit.fromDistPackage pkgNine, Toolkit.fromDistPackage pkgTen] ∧
      List.Perm [Toolkit.fromDistPackage pkgNine, Toolkit.fromDistPackage pkgTen]
        ([pkgTen, pkgNine].map Toolkit.fromDistPackage) :=
  c6_amended [pkgTen, pkgNine] _ rfl

/-! ### C10 — toolkit equality and `installable_toolkits` -/

/-- C10: membership in `installable_toolkits` is exactly membership in the
downloaded list minus the toolkits agreeing with the installed one in name
and version — edition, description and manifest URL play no role in the
exclusion. -/
theorem c10_installable_excludes_by_name_version :
    ∀ (all_toolkits : List Toolkit) (installed tk : Toolkit),
      tk ∈ installable_toolkits all_toolkits (some installed) ↔
        tk ∈ all_toolkits ∧ ¬(tk.name = installed.name ∧ tk.version = installed.version) := by
  intro all installed tk
  simp only [installable_toolkits, List.partition_eq_filter_filter, List.mem_append,
    List.mem_filter, toolkitEq, Bool.not_eq_true', Bool.and_eq_false_iff, beq_eq_false_iff_ne,
    ne_eq, not_and]
  constructor
  · rintro (⟨⟨hm, hne⟩, _⟩ | ⟨⟨hm, hne⟩, _⟩) <;> exact ⟨hm, fun h1 h2 => by tauto⟩
  · rintro ⟨hm, hne⟩
    by_cases hed : (tk.edition == installed.edition) = true
    · exact Or.inl ⟨⟨hm, by tauto⟩, hed⟩
    · exact Or.inr ⟨⟨hm, by tauto⟩, by simpa using hed⟩

/-! ### C5 — the update semver gate -/

/-- C5: `latest_installable_toolkit` answers `Some tk` only when `tk` is a
remote toolkit of the installed edition whose trimmed version parses and is
strictly greater, under semver, than the installed trimmed version. -/
theorem c5_some_only_when_strictly_greater :
    ∀ (remote : List Toolkit) (installed tk : Toolkit),
      latest_installable_toolkit remote installed = .ok (some tk) →
        tk ∈ remote ∧ tk.edition = installed.edition ∧
        ∃ cur target,
          parseSemVer (trim_version installed.version.data) = some cur ∧
          parseSemVer (trim_version tk.version.data) = some target ∧
          semverLt cur target = true := by
  intro remote installed tk h
  unfold latest_installable_toolkit at h
  cases hfind : remote.find? (fun t => t.edition == installed.edition) with
  | none => simp [hfind] at h
  | some latest =>
    simp only [hfind] at h
    cases hcur : parseSemVer (trim_version installed.version.data) with
    | none => simp [hcur] at h
    | some cur =>
      simp only [hcur] at h
      cases htgt : parseSemVer (trim_version latest.version.data) with
      | none => simp [htgt] at h
      | some target =>
        simp only [htgt] at h
        by_cases hlt : semverLt cur target = true
        · rw [if_pos hlt, Except.ok.injEq, Option.some.injEq] at h
          subst h
          refine ⟨List.mem_of_find?_eq_some hfind, ?_, cur, target, rfl, htgt, hlt⟩
          have := List.find?_some hfind
          simpa using this
        · rw [if_neg hlt] at h
          simp at h

/-- C5 witness: with `1.2.0` installed and `1.3.0` remote (same edition),
the gate answers `Some` and the conclusion holds. -/
theorem c5_witness :
    tkNewer ∈ [tkNewer] ∧ tkNewer.edition = tkInstalled.edition ∧
      ∃ cur target,
        parseSemVer (trim_version tkInstalled.version.data) = some cur ∧
        parseSemVer (trim_version tkNewer.version.data) = some target ∧
        semverLt cur target = true :=
  c5_some_only_when_strictly_greater [tkNewer] tkInstalled tkNewer rfl

/-! ### C7 — the manifest cache -/

/-- C7: `clear_cached_manifest` operates on a function-local static that is
distinct from the cache used by `get_toolkit_manifest`, so after loading a
manifest and clearing its URL, the entry is still in the cache and the next
`get_toolkit_manifest` call returns the stale cached value (here
`manifest-v1`) instead of reloading from the source (which would give
`manifest-v2`). -/
theorem c7_clear_does_not_invalidate :
    (get_toolkit_manifest (fun _ => "manifest-v2")
        (clear_cached_manifest
          (get_toolkit_manifest (fun _ => "manifest-v1") {}
            (some "https://example.com/kit.toml")).2
          (some "https://example.com/kit.toml"))
        (some "https://example.com/kit.toml")).1 = "manifest-v1" ∧
    assocFind (some "https://example.com/kit.toml")
        (clear_cached_manifest
          (get_toolkit_manifest (fun _ => "manifest-v1") {}
            (some "https://example.com/kit.toml")).2
          (some "https://example.com/kit.toml")).getCache
      = some "manifest-v1" :=
  ⟨rfl, rfl⟩

/-! ### C8 — `package_root` of a loaded manifest -/

/-- C8: for a manifest loaded from a file path, `package_root` returns that
file path itself, not its parent directory. -/
theorem c8_package_root_is_manifest_path :
    package_root (ToolkitManifest.load {} ["opt", "kit", "toolset-manifest.toml"]) false
        ["dev", "cache"] ["opt", "bin"]
      = ["opt", "kit", "toolset-manifest.toml"] ∧
    parentDir ["opt", "kit", "toolset-manifest.toml"] = ["opt", "kit"] ∧
    (["opt", "kit", "toolset-manifest.toml"] : List String) ≠ ["opt", "kit"] :=
  ⟨rfl, rfl, by decide⟩

/-! ### C4 — the solo-directory descent -/

theorem skipSolo_eq_spec (stop : Option String) :
    ∀ (e : Entry) (acc : List String), soloChainAllDirs stop e →
      skipSoloDir stop e acc = specSkipSoloDir stop e acc := by
  intro e acc
  induction e, acc using skipSoloDir.induct stop with
  | case1 _ _ => intro _; rfl
  | case2 name acc sub hstop =>
    intro _
    rcases sub with n | ⟨n, cs⟩
    · simp only [entryName] at hstop
      simp [skipSoloDir, specSkipSoloDir, hstop, entryName]
    · simp only [entryName] at hstop
      simp [skipSoloDir, specSkipSoloDir, hstop, entryName]
  | case3 name acc sub hstop ih =>
    intro hchain
    rcases sub with n | ⟨n, cs⟩
    · exfalso
      simp only [entryName] at hstop
      simp [soloChainAllDirs, entryName, entryIsDir, hstop] at hchain
    · simp only [entryName] at hstop ih
      have hsub : soloChainAllDirs stop (.dir n cs) := by
        simp only [soloChainAllDirs, entryName] at hchain
        rw [if_neg hstop] at hchain
        exact hchain.2
      simp only [skipSoloDir, specSkipSoloDir, entryName]
      rw [if_neg hstop, if_neg hstop]
      exact ih hsub
  | case4 name children acc hnotsingle =>
    intro _
    rcases children with _ | ⟨a, _ | ⟨b, rest⟩⟩
    · simp [skipSoloDir, specSkipSoloDir]
    · exact (hnotsingle a rfl).elim
    · cases a <;> simp [skipSoloDir, specSkipSoloDir]

/-- C4 counterexample: extracting an archive that unpacks to a single
**file** (no directory at all): the code descends into the solo file and
returns the file's path, while the claimed contract ("descend while each
level contains exactly one entry that is a directory … return the deepest
solo directory") would return the root itself. -/
theorem c4_counterexample :
    skipSoloDir (some "bin") (.dir "root" [.file "inner.tar"]) [] = ["inner.tar"] ∧
    specSkipSoloDir (some "bin") (.dir "root" [.file "inner.tar"]) [] = [] ∧
    (["inner.tar"] : List String) ≠ [] :=
  ⟨rfl, rfl, by decide⟩

/-- C4 (amended): the descent follows solo entries of **any** kind.  When
every solo entry along the chain is a directory the code agrees with the
claimed contract (deepest solo directory, or the parent when the solo
directory is named like the stop keyword); but when a level's single entry
is a file not named like the stop keyword, the code returns that file's
path (which is what enables nested-archive recovery). -/
theorem c4_amended :
    ∀ (stop : Option String) (e : Entry) (acc : List String),
      (soloChainAllDirs stop e → skipSoloDir stop e acc = specSkipSoloDir stop e acc) ∧
      (∀ n m, e = .dir n [.file m] → stop ≠ some m →
        skipSoloDir stop e acc = acc ++ [m]) := by
  intro stop e acc
  constructor
  · exact skipSolo_eq_spec stop e acc
  · intro n m he hm
    subst he
    simp [skipSoloDir, entryName, hm]

/-- C4 witness: a directory chain `root/tool-1.0/bin` with stop keyword
`bin` (first part), and a solo-file tree (second part). -/
theorem c4_witness :
    skipSoloDir (some "bin") (.dir "root" [.dir "tool-1.0" [.dir "bin" []]]) []
        = specSkipSoloDir (some "bin") (.dir "root" [.dir "tool-1.0" [.dir "bin" []]]) [] ∧
    skipSoloDir (some "bin") (.dir "root" [.file "inner.tar"]) [] = [] ++ ["inner.tar"] :=
  ⟨(c4_amended (some "bin") (.dir "root" [.dir "tool-1.0" [.dir "bin" []]]) []).1
      (by simp [soloChainAllDirs, entryName, entryIsDir]),
   (c4_amended (some "bin") (.dir "root" [.file "inner.tar"]) []).2 "root" "inner.tar" rfl
      (by decide)⟩

/-! ### C9 — `fill_missing_package_source` -/

theorem componentWithFilledSource_name (v : String) (c : Component) :
    (componentWithFilledSource v c).name = c.name := by
  unfold componentWithFilledSource
  cases hti : c.tool_installer with
  | none => rfl
  | some ti => cases hrs : ti.restricted_source <;> simp [hti, hrs]

theorem updateFirst_map_name (p : Component → Bool) (f : Component → Component)
    (hf : ∀ c, (f c).name = c.name) :
    ∀ l : List Component, (updateFirst p f l).map Component.name = l.map Component.name := by
  intro l
  induction l with
  | nil => rfl
  | cons c rest ih =>
    unfold updateFirst
    by_cases hp : p c = true
    · simp [hp, hf c]
    · simp only [hp]
      simp [ih]

theorem find?_name_isSome_iff (l : List Component) (n : String) :
    (l.find? (fun c => c.name == n)).isSome = (l.map Component.name).contains n := by
  induction l with
  | nil => rfl
  | cons c rest ih =>
    simp only [List.find?_cons, List.map_cons, List.contains_cons]
    by_cases h : c.name = n
    · simp [h]
    · have h1 : (c.name == n) = false := by simpa using h
      have h2 : (n == c.name) = false := by simpa using Ne.symm h
      simp [h1, h2, ih]

theorem applyComponentWrites_append (w1 w2 : List (String × String)) :
    ∀ comps : List Component,
      applyComponentWrites (w1 ++ w2) comps
        = applyComponentWrites w2 (applyComponentWrites w1 comps) := by
  induction w1 with
  | nil => intro comps; rfl
  | cons w rest ih =>
    intro comps
    simp only [List.cons_append, applyComponentWrites]
    exact ih _

theorem fillStep_spec (cb : String → Option String → String) (st : FillState)
    (name : String) (info : ToolInfo) :
    (fillStep cb st name info).2.comps.map Component.name = st.comps.map Component.name ∧
    (fillStep cb st name info).2.trace
      = st.trace ++ codeInvocations [(name, info)] (st.comps.map Component.name) ∧
    [(name, (fillStep cb st name info).1)]
      = codeUpdatedToolMap cb [(name, info)] (st.comps.map Component.name) ∧
    (fillStep cb st name info).2.comps
      = applyComponentWrites
          (codeComponentWrites cb [(name, info)] (st.comps.map Component.name)) st.comps := by
  unfold fillStep
  cases hfind : st.comps.find? (fun c => c.name == name) with
  | none =>
    have hc : (st.comps.map Component.name).contains name = false := by
      rw [← find?_name_isSome_iff, hfind]
      rfl
    have hcp : ¬ ((st.comps.map Component.name).contains name = true) := by
      rw [hc]
      exact Bool.false_ne_true
    cases hrs : info.restricted_source with
    | none =>
      refine ⟨rfl, ?_, ?_, ?_⟩
      · simp only [codeInvocations, hrs, List.nil_append, List.append_nil]
      · simp only [codeUpdatedToolMap, List.map_cons, List.map_nil, hrs]
      · simp only [codeComponentWrites, hrs, List.nil_append, applyComponentWrites]
    | some sd =>
      refine ⟨rfl, ?_, ?_, ?_⟩
      · simp only [codeInvocations, hrs, if_neg hcp, List.nil_append, List.append_nil]
      · simp only [codeUpdatedToolMap, List.map_cons, List.map_nil, hrs, if_neg hcp]
      · simp only [codeComponentWrites, hrs, if_neg hcp, List.nil_append, applyComponentWrites]
  | some c =>
    have hcp : (st.comps.map Component.name).contains name = true := by
      rw [← find?_name_isSome_iff, hfind]
      rfl
    cases hrs : info.restricted_source with
    | none =>
      refine ⟨rfl, ?_, ?_, ?_⟩
      · simp only [codeInvocations, hrs, List.nil_append, List.append_nil]
      · simp only [codeUpdatedToolMap, List.map_cons, List.map_nil, hrs]
      · simp only [codeComponentWrites, hrs, List.nil_append, applyComponentWrites]
    | some sd =>
      refine ⟨?_, ?_, ?_, ?_⟩
      · exact updateFirst_map_name _ _ (componentWithFilledSource_name _) st.comps
      · simp only [codeInvocations, hrs, if_pos hcp, List.append_nil]
      · simp only [codeUpdatedToolMap, List.map_cons, List.map_nil, hrs, if_pos hcp]
      · simp only [codeComponentWrites, hrs, if_pos hcp, List.append_nil, List.nil_append,
          applyComponentWrites]

theorem fillToolMap_spec (cb : String → Option String → String) :
    ∀ (tools : ToolMap) (st : FillState),
      (fillToolMap cb tools st).2.comps.map Component.name = st.comps.map Component.name ∧
      (fillToolMap cb tools st).2.trace
        = st.trace ++ codeInvocations tools (st.comps.map Component.name) ∧
      (fillToolMap cb tools st).1
        = codeUpdatedToolMap cb tools (st.comps.map Component.name) ∧
      (fillToolMap cb tools st).2.comps
        = applyComponentWrites
            (codeComponentWrites cb tools (st.comps.map Component.name)) st.comps := by
  intro tools
  induction tools with
  | nil =>
    intro st
    simp [fillToolMap, codeInvocations, codeUpdatedToolMap, codeComponentWrites,
      applyComponentWrites]
  | cons p rest ih =>
    intro st
    obtain ⟨name, info⟩ := p
    obtain ⟨hn, ht, hu, hc⟩ := fillStep_spec cb st name info
    obtain ⟨ihn, iht, ihu, ihc⟩ := ih (fillStep cb st name info).2
    simp only [fillToolMap]
    refine ⟨?_, ?_, ?_, ?_⟩
    · rw [ihn, hn]
    · rw [iht, ht, hn]
      have : codeInvocations ((name, info) :: rest) (st.comps.map Component.name)
          = codeInvocations [(name, info)] (st.comps.map Component.name)
            ++ codeInvocations rest (st.comps.map Component.name) := by
        simp [codeInvocations]
      rw [this, List.append_assoc]
    · rw [ihu, hn]
      have hsingle := hu
      have : codeUpdatedToolMap cb ((name, info) :: rest) (st.comps.map Component.name)
          = codeUpdatedToolMap cb [(name, info)] (st.comps.map Component.name)
            ++ codeUpdatedToolMap cb rest (st.comps.map Component.name) := by
        simp [codeUpdatedToolMap]
      rw [this, ← hsingle]
      rfl
    · rw [ihc, hn, hc]
      have hsplit : codeComponentWrites cb ((name, info) :: rest) (st.comps.map Component.name)
          = codeComponentWrites cb [(name, info)] (st.comps.map Component.name)
            ++ codeComponentWrites cb rest (st.comps.map Component.name) := by
        simp [codeComponentWrites]
      rw [hsplit, applyComponentWrites_append]

theorem fill_missing_package_source_spec (cb : String → Option String → String) :
    ∀ (targets : List (String × ToolMap)) (st : FillState),
      (fill_missing_package_source cb targets st).2.comps.map Component.name
          = st.comps.map Component.name ∧
      (fill_missing_package_source cb targets st).2.trace
        = st.trace
          ++ (targets.map (fun t => codeInvocations t.2 (st.comps.map Component.name))).flatten ∧
      (fill_missing_package_source cb targets st).1
        = targets.map (fun t => (t.1, codeUpdatedToolMap cb t.2 (st.comps.map Component.name))) ∧
      (fill_missing_package_source cb targets st).2.comps
        = applyComponentWrites
            ((targets.map
                (fun t => codeComponentWrites cb t.2 (st.comps.map Component.name))).flatten)
            st.comps := by
  intro targets
  induction targets with
  | nil => intro st; simp [fill_missing_package_source, applyComponentWrites]
  | cons t rest ih =>
    intro st
    obtain ⟨triple, tools⟩ := t
    obtain ⟨hn, ht, hu, hc⟩ := fillToolMap_spec cb tools st
    obtain ⟨ihn, iht, ihu, ihc⟩ := ih (fillToolMap cb tools st).2
    simp only [fill_missing_package_source]
    refine ⟨?_, ?_, ?_, ?_⟩
    · rw [ihn, hn]
    · rw [iht, ht, hn]
      simp [List.append_assoc]
    · rw [ihu, hn, hu]
      simp
    · rw [ihc, hn, hc]
      have hsplit :
          ((((triple, tools) :: rest).map
              (fun t => codeComponentWrites cb t.2 (st.comps.map Component.name))).flatten)
            = codeComponentWrites cb tools (st.comps.map Component.name)
              ++ ((rest.map
                  (fun t => codeComponentWrites cb t.2 (st.comps.map Component.name))).flatten) := by
        simp
      rw [hsplit, applyComponentWrites_append]

/-- C9 counterexample: a selected tool whose `Restricted` source is already
filled (`source = Some …`).  The claim says the callback is invoked exactly
for `Restricted { source = None }` tools, so here it should not run; the
code invokes it anyway and overwrites the filled source in both the
manifest entry and the component. -/
theorem c9_counterexample :
    (fill_missing_package_source (fun _ _ => "user-input") c9targets
        { comps := [c9comp], trace := [] }).2.trace = [("t", none)] ∧
    claimedInvocations c9targets ["t"] = [] ∧
    (fill_missing_package_source (fun _ _ => "user-input") c9targets
        { comps := [c9comp], trace := [] }).1
      = [("x86_64-unknown-linux-gnu",
          [("t", c9tool.set_restricted_source (some "user-input"))])] ∧
    (fill_missing_package_source (fun _ _ => "user-input") c9targets
        { comps := [c9comp], trace := [] }).2.comps
      = [{ name := "t", typ := .tool,
           tool_installer := some (c9tool.set_restricted_source (some "user-input")) }] :=
  ⟨rfl, rfl, rfl, rfl⟩

/-- C9 (amended): `fill_missing_package_source` invokes the callback
exactly for the tools with a `Restricted` source — whether or not that
source is already filled — whose name appears among the selected component
names, in manifest walk order; it overwrites each such manifest entry's
source with the string the callback returned, and writes that same string
into the matching `Component`'s embedded tool info (the first component
bearing the tool's name, when its embedded info also carries a `Restricted`
source). -/
theorem c9_amended :
    ∀ (cb : String → Option String → String) (targets : List (String × ToolMap))
      (comps : List Component),
      (fill_missing_package_source cb targets { comps := comps, trace := [] }).2.trace
          = (targets.map (fun t => codeInvocations t.2 (comps.map Component.name))).flatten ∧
      (fill_missing_package_source cb targets { comps := comps, trace := [] }).1
          = targets.map (fun t => (t.1, codeUpdatedToolMap cb t.2 (comps.map Component.name))) ∧
      (fill_missing_package_source cb targets { comps := comps, trace := [] }).2.comps
          = applyComponentWrites
              ((targets.map
                  (fun t => codeComponentWrites cb t.2 (comps.map Component.name))).flatten)
              comps := by
  intro cb targets comps
  obtain ⟨_, ht, hu, hc⟩ :=
    fill_missing_package_source_spec cb targets { comps := comps, trace := [] }
  exact ⟨by simpa using ht, by simpa using hu, by simpa using hc⟩

/-! ### C1 — conflict rejection -/

theorem insertConflict_ne_nil (acc : List (String × String)) (pr : String × String) :
    insertConflict acc pr ≠ [] := by
  unfold insertConflict
  by_cases hc : acc.contains pr = true
  · rw [if_pos hc]
    intro h
    subst h
    simp at hc
  · rw [if_neg hc]
    simp

theorem conflictInnerFold_eq_nil_iff (tools : ToolMap) (name : String) :
    ∀ (cs : List String) (acc : List (String × String)),
      cs.foldl (fun acc c =>
          if tools.any (fun q => q.1 == c) then insertConflict acc (conflictPair name c)
          else acc) acc = []
        ↔ acc = [] ∧ ∀ c ∈ cs, tools.any (fun q => q.1 == c) = false := by
  intro cs
  induction cs with
  | nil => intro acc; simp
  | cons c cs' ih =>
    intro acc
    rw [List.foldl_cons, ih]
    by_cases hany : tools.any (fun q => q.1 == c) = true
    · rw [if_pos hany]
      constructor
      · rintro ⟨h1, _⟩
        exact absurd h1 (insertConflict_ne_nil _ _)
      · rintro ⟨_, hall⟩
        have := hall c (List.mem_cons_self c cs')
        rw [hany] at this
        exact absurd this (by simp)
    · rw [if_neg hany]
      constructor
      · rintro ⟨h1, h2⟩
        refine ⟨h1, fun c' hc' => ?_⟩
        rcases List.mem_cons.mp hc' with rfl | hmem
        · exact eq_false_of_ne_true hany
        · exact h2 c' hmem
      · rintro ⟨h1, hall⟩
        exact ⟨h1, fun c' hc' => hall c' (List.mem_cons_of_mem c hc')⟩

theorem conflictOuterFold_eq_nil_iff (tools : ToolMap) :
    ∀ (l : ToolMap) (acc : List (String × String)),
      l.foldl (fun acc p =>
          p.2.conflicts.foldl (fun acc c =>
            if tools.any (fun q => q.1 == c) then insertConflict acc (conflictPair p.1 c)
            else acc) acc) acc = []
        ↔ acc = [] ∧ ∀ p ∈ l, ∀ c ∈ p.2.conflicts, tools.any (fun q => q.1 == c) = false := by
  intro l
  induction l with
  | nil => intro acc; simp
  | cons p l' ih =>
    intro acc
    rw [List.foldl_cons, ih, conflictInnerFold_eq_nil_iff]
    constructor
    · rintro ⟨⟨h1, h2⟩, h3⟩
      refine ⟨h1, fun q hq => ?_⟩
      rcases List.mem_cons.mp hq with rfl | hmem
      · exact h2
      · exact h3 q hmem
    · rintro ⟨h1, hall⟩
      exact ⟨⟨h1, hall p (List.mem_cons_self p l')⟩,
        fun q hq => hall q (List.mem_cons_of_mem p hq)⟩

theorem collectConflicts_eq_nil_iff (tools : ToolMap) :
    collectConflicts tools = []
      ↔ ∀ p ∈ tools, ∀ c ∈ p.2.conflicts, tools.any (fun q => q.1 == c) = false := by
  unfold collectConflicts
  rw [conflictOuterFold_eq_nil_iff]
  simp

theorem reject_ok_iff (tools : ToolMap) :
    reject_conflicting_tools tools = .ok ()
      ↔ ∀ p ∈ tools, ∀ c ∈ p.2.conflicts, tools.any (fun q => q.1 == c) = false := by
  unfold reject_conflicting_tools
  rw [← collectConflicts_eq_nil_iff]
  by_cases h : (collectConflicts tools).isEmpty = true
  · rw [if_pos h]
    simp only [List.isEmpty_iff] at h
    simp [h]
  · rw [if_neg h]
    have hne : collectConflicts tools ≠ [] := by
      intro hnil
      exact h (by simp [hnil])
    constructor
    · intro hcontra
      exact absurd hcontra (by simp)
    · intro hnil
      exact absurd hnil hne

theorem hasPair_not_all (tools : ToolMap) (h : hasSelectedConflictPair tools) :
    ¬ ∀ p ∈ tools, ∀ c ∈ p.2.conflicts, tools.any (fun q => q.1 == c) = false := by
  obtain ⟨a, ia, b, hmem, hconf, hany⟩ := h
  intro hall
  have hfalse := hall (a, ia) hmem b hconf
  rw [hany] at hfalse
  exact absurd hfalse (by simp)

/-- C1: if the selected tool set contains a declared conflict pair with both
sides selected, `install` fails with the conflict summary no matter what any
installation step would have returned (that is, before performing any
installation IO); if every declared conflict has at most one side selected,
no conflict error is raised and the run proceeds (succeeding whenever setup
does). -/
theorem c1_conflict_check :
    (∀ components : List Component,
       hasSelectedConflictPair (split_components components).2 →
       ∃ msg, reject_conflicting_tools (split_components components).2 = .error msg ∧
         ∀ env : InstallEnv, install env components = .error msg) ∧
    (∀ (components : List Component) (env : InstallEnv),
       (∀ p ∈ (split_components components).2, ∀ c ∈ p.2.conflicts,
           (split_components components).2.any (fun q => q.1 == c) = false) →
       env.setup_result = none →
       ∃ st, install env components = .ok st) := by
  constructor
  · intro components hpair
    have hne : collectConflicts (split_components components).2 ≠ [] := by
      intro hnil
      exact hasPair_not_all _ hpair ((collectConflicts_eq_nil_iff _).mp hnil)
    have hempty : ¬ ((collectConflicts (split_components components).2).isEmpty = true) := by
      intro hE
      exact hne (by simpa [List.isEmpty_iff] using hE)
    have hrej : reject_conflicting_tools (split_components components).2
        = .error (conflict_error_message (collectConflicts (split_components components).2)) := by
      unfold reject_conflicting_tools
      rw [if_neg hempty]
    refine ⟨_, hrej, fun env => ?_⟩
    simp only [install, hrej]
  · intro components env hnoconf hsetup
    have hrej : reject_conflicting_tools (split_components components).2 = .ok () :=
      (reject_ok_iff _).mpr hnoconf
    refine ⟨install_tools_ env true (split_components components).2
      (install_rust env
        (install_tools_ env false (split_components components).2 (preSteps env))), ?_⟩
    simp only [install, hrej, hsetup]

/-- C1 witness: the first part at a selection containing both `a` and `b`
with `a.conflicts = [b]`; the second at a selection containing only `a`. -/
theorem c1_witness :
    (∃ msg, reject_conflicting_tools (split_components compsConflicting).2 = .error msg ∧
       ∀ env : InstallEnv, install env compsConflicting = .error msg) ∧
    (∃ st, install allOkEnv compsOneSide = .ok st) :=
  ⟨c1_conflict_check.1 compsConflicting
      ⟨"a", confToolA, "b", by decide, by decide, by decide⟩,
   c1_conflict_check.2 compsOneSide allOkEnv (by decide) rfl⟩

/-! ### Characterizations of the install phases (for C2 and C3) -/

theorem topoEmit_perm : ∀ (fuel : Nat) (remaining acc : ToolMap),
    (topoEmit fuel remaining acc).Perm (acc ++ remaining) := by
  intro fuel
  induction fuel with
  | zero => intro r a; simp [topoEmit]
  | succ fuel ih =>
    intro remaining acc
    simp only [topoEmit]
    split
    · exact List.Perm.refl _
    · refine (ih _ _).trans ?_
      rw [List.append_assoc]
      exact List.Perm.append_left acc (List.filter_append_perm _ remaining)

theorem topological_sorted_perm (tools : ToolMap) : (topological_sorted tools).Perm tools := by
  unfold topological_sorted
  refine (List.reverse_perm _).trans ?_
  simpa using topoEmit_perm tools.length tools []

theorem mem_sorted_reverse_of_mem {tools : ToolMap} {p : String × ToolInfo} (hp : p ∈ tools) :
    p ∈ (topological_sorted tools).reverse := by
  rw [List.mem_reverse]
  exact ((topological_sorted_perm tools).mem_iff).mpr hp

theorem mem_of_mem_sorted_reverse {tools : ToolMap} {p : String × ToolInfo}
    (hp : p ∈ (topological_sorted tools).reverse) : p ∈ tools := by
  rw [List.mem_reverse] at hp
  exact ((topological_sorted_perm tools).mem_iff).mp hp

theorem toolFold_spec (env : InstallEnv) :
    ∀ (l : ToolMap) (st : RunState),
      (l.foldl (installToolStep env) st).errors.rust_error = st.errors.rust_error ∧
      (l.foldl (installToolStep env) st).errors.step_errors = st.errors.step_errors ∧
      (l.foldl (installToolStep env) st).toolchain_is_installed = st.toolchain_is_installed ∧
      (∀ x ∈ st.errors.tool_errors, x ∈ (l.foldl (installToolStep env) st).errors.tool_errors) ∧
      (∀ p ∈ l, ∀ e, env.tool_result p.1 = some e →
        (p.1, e) ∈ (l.foldl (installToolStep env) st).errors.tool_errors) ∧
      (∀ n, n ∈ (l.foldl (installToolStep env) st).installed_tools →
        n ∈ st.installed_tools ∨ ∃ p, p ∈ l ∧ p.1 = n) := by
  intro l
  induction l with
  | nil =>
    intro st
    refine ⟨rfl, rfl, rfl, fun x hx => hx, ?_, fun n hn => Or.inl hn⟩
    intro p hp
    exact absurd hp (List.not_mem_nil p)
  | cons p l' ih =>
    intro st
    rw [List.foldl_cons]
    obtain ⟨ih1, ih2, ih3, ih4, ih5, ih6⟩ := ih (installToolStep env st p)
    have hstep :
        (installToolStep env st p).errors.rust_error = st.errors.rust_error ∧
        (installToolStep env st p).errors.step_errors = st.errors.step_errors ∧
        (installToolStep env st p).toolchain_is_installed = st.toolchain_is_installed ∧
        (∀ x ∈ st.errors.tool_errors, x ∈ (installToolStep env st p).errors.tool_errors) ∧
        (∀ e, env.tool_result p.1 = some e →
          (p.1, e) ∈ (installToolStep env st p).errors.tool_errors) ∧
        (∀ n, n ∈ (installToolStep env st p).installed_tools →
          n ∈ st.installed_tools ∨ n = p.1) := by
      unfold installToolStep
      cases h : env.tool_result p.1 with
      | none =>
        refine ⟨rfl, rfl, rfl, fun x hx => hx, ?_, ?_⟩
        · intro e he
          exact absurd he (by simp)
        · intro n hn
          rcases List.mem_append.mp hn with h1 | h2
          · exact Or.inl h1
          · exact Or.inr (by simpa using h2)
      | some e' =>
        refine ⟨rfl, rfl, rfl, ?_, ?_, fun n hn => Or.inl hn⟩
        · intro x hx
          exact List.mem_append.mpr (Or.inl hx)
        · intro e he
          rw [Option.some.injEq] at he
          subst he
          exact List.mem_append.mpr (Or.inr (by simp))
    obtain ⟨h1, h2, h3, h4, h5, h6⟩ := hstep
    refine ⟨by rw [ih1, h1], by rw [ih2, h2], by rw [ih3, h3], ?_, ?_, ?_⟩
    · intro x hx
      exact ih4 x (h4 x hx)
    · intro q hq e he
      rcases List.mem_cons.mp hq with rfl | hmem
      · exact ih4 _ (h5 e he)
      · exact ih5 q hmem e he
    · intro n hn
      rcases ih6 n hn with hin | ⟨q, hq, hqn⟩
      · rcases h6 n hin with hl | hr
        · exact Or.inl hl
        · exact Or.inr ⟨p, List.mem_cons_self p l', hr.symm⟩
      · exact Or.inr ⟨q, List.mem_cons_of_mem p hq, hqn⟩

theorem skipFold_spec :
    ∀ (l : ToolMap) (es : InstallationErrors),
      (l.foldl (fun es p => addToolError es p.1 noToolchainMsg) es).tool_errors
          = es.tool_errors ++ l.map (fun p => (p.1, noToolchainMsg)) ∧
      (l.foldl (fun es p => addToolError es p.1 noToolchainMsg) es).rust_error
          = es.rust_error ∧
      (l.foldl (fun es p => addToolError es p.1 noToolchainMsg) es).step_errors
          = es.step_errors := by
  intro l
  induction l with
  | nil => intro es; simp
  | cons p l' ih =>
    intro es
    rw [List.foldl_cons]
    obtain ⟨i1, i2, i3⟩ := ih (addToolError es p.1 noToolchainMsg)
    refine ⟨?_, by rw [i2]; rfl, by rw [i3]; rfl⟩
    rw [i1]
    simp [addToolError]

theorem install_tools_spec (env : InstallEnv) (use_rust : Bool) (tools : ToolMap)
    (st : RunState) :
    (install_tools_ env use_rust tools st).errors.rust_error = st.errors.rust_error ∧
    (install_tools_ env use_rust tools st).toolchain_is_installed = st.toolchain_is_installed ∧
    (∀ x ∈ st.errors.step_errors, x ∈ (install_tools_ env use_rust tools st).errors.step_errors) ∧
    (∀ x ∈ st.errors.tool_errors, x ∈ (install_tools_ env use_rust tools st).errors.tool_errors) ∧
    (∀ p ∈ tools, requiresToolchain p.2 = use_rust → ∀ e, env.tool_result p.1 = some e →
       ∃ m, (p.1, m) ∈ (install_tools_ env use_rust tools st).errors.tool_errors) ∧
    (use_rust = true → st.toolchain_is_installed = false →
       (install_tools_ env use_rust tools st).installed_tools = st.installed_tools ∧
       ∀ p ∈ tools, requiresToolchain p.2 = true →
         (p.1, noToolchainMsg) ∈ (install_tools_ env use_rust tools st).errors.tool_errors) ∧
    (∀ n, n ∈ (install_tools_ env use_rust tools st).installed_tools →
       n ∈ st.installed_tools ∨ ∃ p, p ∈ tools ∧ p.1 = n ∧ requiresToolchain p.2 = use_rust) := by
  have hmem_ti : ∀ p : String × ToolInfo,
      p ∈ tools.filter (fun p => requiresToolchain p.2 == use_rust)
        ↔ p ∈ tools ∧ requiresToolchain p.2 = use_rust := by
    intro p
    rw [List.mem_filter]
    simp
  unfold install_tools_
  by_cases hskip : (use_rust && !st.toolchain_is_installed
      && !(tools.filter (fun p => requiresToolchain p.2 == use_rust)).isEmpty) = true
  · rw [if_pos hskip]
    obtain ⟨f1, f2, f3⟩ :=
      skipFold_spec (tools.filter (fun p => requiresToolchain p.2 == use_rust)) st.errors
    refine ⟨f2, rfl, ?_, ?_, ?_, ?_, fun n hn => Or.inl hn⟩
    · intro x hx
      rw [f3]
      exact hx
    · intro x hx
      rw [f1]
      exact List.mem_append.mpr (Or.inl hx)
    · intro p hp hreq e he
      refine ⟨noToolchainMsg, ?_⟩
      rw [f1]
      exact List.mem_append.mpr (Or.inr (List.mem_map.mpr ⟨p, (hmem_ti p).mpr ⟨hp, hreq⟩, rfl⟩))
    · intro hr htc
      refine ⟨rfl, ?_⟩
      intro p hp hreq
      have hmem : p ∈ tools.filter (fun p => requiresToolchain p.2 == use_rust) :=
        (hmem_ti p).mpr ⟨hp, by rw [hreq, hr]⟩
      rw [f1]
      exact List.mem_append.mpr (Or.inr (List.mem_map.mpr ⟨p, hmem, rfl⟩))
  · rw [if_neg hskip]
    by_cases hempty : (tools.filter (fun p => requiresToolchain p.2 == use_rust)).isEmpty = true
    · rw [if_pos hempty]
      have hnil : tools.filter (fun p => requiresToolchain p.2 == use_rust) = [] := by
        simpa [List.isEmpty_iff] using hempty
      refine ⟨rfl, rfl, fun x hx => hx, fun x hx => hx, ?_, ?_, fun n hn => Or.inl hn⟩
      · intro p hp hreq e he
        exfalso
        have hmem := (hmem_ti p).mpr ⟨hp, hreq⟩
        rw [hnil] at hmem
        exact absurd hmem (List.not_mem_nil p)
      · intro hr htc
        refine ⟨rfl, ?_⟩
        intro p hp hreq
        exfalso
        have hmem := (hmem_ti p).mpr ⟨hp, by rw [hreq, hr]⟩
        rw [hnil] at hmem
        exact absurd hmem (List.not_mem_nil p)
    · rw [if_neg hempty]
      obtain ⟨t1, t2, t3, t4, t5, t6⟩ := toolFold_spec env
        ((topological_sorted (tools.filter (fun p => requiresToolchain p.2 == use_rust))).reverse)
        st
      have hImp : use_rust = true → st.toolchain_is_installed = false → False := by
        intro hr htc
        apply hskip
        have hE : (tools.filter (fun p => requiresToolchain p.2 == use_rust)).isEmpty = false :=
          eq_false_of_ne_true hempty
        rw [hr, htc]
        rw [hr] at hE
        rw [hE]
        rfl
      cases hw : env.write_record_result with
      | none =>
        refine ⟨t1, t3, ?_, t4, ?_, ?_, ?_⟩
        · intro x hx
          rw [t2]
          exact hx
        · intro p hp hreq e he
          exact ⟨e, t5 p (mem_sorted_reverse_of_mem ((hmem_ti p).mpr ⟨hp, hreq⟩)) e he⟩
        · intro hr htc
          exact (hImp hr htc).elim
        · intro n hn
          rcases t6 n hn with hl | ⟨p, hp, hpn⟩
          · exact Or.inl hl
          · obtain ⟨hmem, hreq⟩ := (hmem_ti p).mp (mem_of_mem_sorted_reverse hp)
            exact Or.inr ⟨p, hmem, hpn, hreq⟩
      | some e' =>
        refine ⟨t1, t3, ?_, t4, ?_, ?_, ?_⟩
        · intro x hx
          refine List.mem_append.mpr (Or.inl ?_)
          rw [t2]
          exact hx
        · intro p hp hreq e he
          exact ⟨e, t5 p (mem_sorted_reverse_of_mem ((hmem_ti p).mpr ⟨hp, hreq⟩)) e he⟩
        · intro hr htc
          exact (hImp hr htc).elim
        · intro n hn
          rcases t6 n hn with hl | ⟨p, hp, hpn⟩
          · exact Or.inl hl
          · obtain ⟨hmem, hreq⟩ := (hmem_ti p).mp (mem_of_mem_sorted_reverse hp)
            exact Or.inr ⟨p, hmem, hpn, hreq⟩

theorem install_rust_spec (env : InstallEnv) (st : RunState) :
    (install_rust env st).errors.tool_errors = st.errors.tool_errors ∧
    (install_rust env st).installed_tools = st.installed_tools ∧
    (∀ x ∈ st.errors.step_errors, x ∈ (install_rust env st).errors.step_errors) ∧
    (∀ e, env.rust_result = some e →
       (install_rust env st).errors.rust_error = some e ∧
       (install_rust env st).toolchain_is_installed = st.toolchain_is_installed) ∧
    (env.rust_result = none →
       (install_rust env st).errors.rust_error = st.errors.rust_error) := by
  unfold install_rust
  cases hr : env.rust_result with
  | some e =>
    refine ⟨rfl, rfl, fun x hx => hx, ?_, ?_⟩
    · intro e' he'
      rw [Option.some.injEq] at he'
      subst he'
      exact ⟨rfl, rfl⟩
    · intro h
      exact absurd h (by simp)
  | none =>
    cases ha : env.add_path_result <;> cases hw : env.write_record_result <;>
      refine ⟨rfl, rfl, ?_, ?_, fun _ => rfl⟩ <;>
      first
        | (intro x hx
           simp only [addStepError]
           first
             | exact hx
             | exact List.mem_append.mpr (Or.inl hx)
             | exact List.mem_append.mpr (Or.inl (List.mem_append.mpr (Or.inl hx))))
        | (intro e' he'
           exact absurd he' (by simp))

theorem preSteps_spec (env : InstallEnv) :
    (preSteps env).errors.tool_errors = [] ∧
    (preSteps env).errors.rust_error = none ∧
    (preSteps env).toolchain_is_installed = false ∧
    (preSteps env).installed_tools = [] ∧
    (∀ e, env.env_vars_result = some e →
       (envVarsStepName, e) ∈ (preSteps env).errors.step_errors) ∧
    (∀ e, env.cargo_config_result = some e →
       (cargoConfigStepName, e) ∈ (preSteps env).errors.step_errors) := by
  unfold preSteps
  cases hv : env.env_vars_result <;> cases hc : env.cargo_config_result <;>
    refine ⟨rfl, rfl, rfl, rfl, ?_, ?_⟩ <;>
    intro e he <;>
    first
      | (rw [Option.some.injEq] at he
         subst he
         simp [addStepError])
      | exact absurd he (by simp)

/-! ### C2 — the batch succeeds, failures are aggregated -/

/-- C2: once the conflict check and setup succeed, `install` returns `Ok`
regardless of the outcomes of the env-var step, the cargo-config step, the
individual tool installations and the toolchain installation; those
failures are only collected into the error aggregate, categorised as step,
rust or tool entries. -/
theorem c2_batch_succeeds :
    ∀ (components : List Component) (env : InstallEnv),
      reject_conflicting_tools (split_components components).2 = .ok () →
      env.setup_result = none →
      ∃ st, install env components = .ok st ∧
        (∀ e, env.env_vars_result = some e → (envVarsStepName, e) ∈ st.errors.step_errors) ∧
        (∀ e, env.cargo_config_result = some e →
          (cargoConfigStepName, e) ∈ st.errors.step_errors) ∧
        (∀ e, env.rust_result = some e → st.errors.rust_error = some e) ∧
        (∀ p ∈ (split_components components).2, ∀ e, env.tool_result p.1 = some e →
           ∃ m, (p.1, m) ∈ st.errors.tool_errors) := by
  intro components env hrej hsetup
  obtain ⟨pre1, pre2, pre3, pre4, pre5, pre6⟩ := preSteps_spec env
  obtain ⟨e1, e2, e3, e4, e5, e6, e7⟩ :=
    install_tools_spec env false (split_components components).2 (preSteps env)
  obtain ⟨r1, r2, r3, r4, r5⟩ :=
    install_rust_spec env
      (install_tools_ env false (split_components components).2 (preSteps env))
  obtain ⟨l1, l2, l3, l4, l5, l6, l7⟩ :=
    install_tools_spec env true (split_components components).2
      (install_rust env
        (install_tools_ env false (split_components components).2 (preSteps env)))
  refine ⟨install_tools_ env true (split_components components).2
      (install_rust env
        (install_tools_ env false (split_components components).2 (preSteps env))),
    ?_, ?_, ?_, ?_, ?_⟩
  · simp only [install, hrej, hsetup]
  · intro e he
    exact l3 _ (r3 _ (e3 _ (pre5 e he)))
  · intro e he
    exact l3 _ (r3 _ (e3 _ (pre6 e he)))
  · intro e he
    rw [l1]
    exact (r4 e he).1
  · intro p hp e he
    by_cases hreq : requiresToolchain p.2 = true
    · exact l5 p hp hreq e he
    · have hreq' : requiresToolchain p.2 = false := eq_false_of_ne_true hreq
      obtain ⟨m, hm⟩ := e5 p hp hreq' e he
      refine ⟨m, l4 _ ?_⟩
      rw [r1]
      exact hm

/-- C2 witness: a run over a url tool and a cargo tool in which the env-var
step, the cargo-config step, tool `t`'s download and the toolchain
installation all fail — the batch still returns `Ok` with everything
collected. -/
theorem c2_witness :
    ∃ st, install failingEnv compsMixed = .ok st ∧
      (∀ e, failingEnv.env_vars_result = some e →
        (envVarsStepName, e) ∈ st.errors.step_errors) ∧
      (∀ e, failingEnv.cargo_config_result = some e →
        (cargoConfigStepName, e) ∈ st.errors.step_errors) ∧
      (∀ e, failingEnv.rust_result = some e → st.errors.rust_error = some e) ∧
      (∀ p ∈ (split_components compsMixed).2, ∀ e, failingEnv.tool_result p.1 = some e →
         ∃ m, (p.1, m) ∈ st.errors.tool_errors) :=
  c2_batch_succeeds compsMixed failingEnv rfl rfl

/-! ### C3 — a toolchain failure disables the late phase -/

theorem keysNodup_inj {l : ToolMap} (h : (l.map Prod.fst).Nodup) :
    ∀ {a : String} {b c : ToolInfo}, (a, b) ∈ l → (a, c) ∈ l → b = c := by
  induction l with
  | nil =>
    intro a b c h1 _
    exact absurd h1 (List.not_mem_nil _)
  | cons p rest ih =>
    intro a b c h1 h2
    simp only [List.map_cons, List.nodup_cons] at h
    rcases List.mem_cons.mp h1 with h1' | h1' <;> rcases List.mem_cons.mp h2 with h2' | h2'
    · have hbc : (a, b) = (a, c) := h1'.trans h2'.symm
      exact (Prod.ext_iff.mp hbc).2
    · exfalso
      apply h.1
      rw [← h1']
      exact List.mem_map.mpr ⟨(a, c), h2', rfl⟩
    · exfalso
      apply h.1
      rw [← h2']
      exact List.mem_map.mpr ⟨(a, b), h1', rfl⟩
    · exact ih h.2 h1' h2'

/-- C3: when the toolchain installation fails, the failure lands as the
`rust` entry of the aggregate, the batch still returns `Ok`, and no tool
that needs the toolchain (a cargo/git tool or one requiring `"rust"`) is
installed during the run — each is skipped with a per-tool error instead. -/
theorem c3_rust_failure_disables_late_phase :
    ∀ (components : List Component) (env : InstallEnv) (e : String),
      reject_conflicting_tools (split_components components).2 = .ok () →
      env.setup_result = none →
      env.rust_result = some e →
      ((split_components components).2.map Prod.fst).Nodup →
      ∃ st, install env components = .ok st ∧
        st.errors.rust_error = some e ∧
        ∀ p ∈ (split_components components).2, requiresToolchain p.2 = true →
          p.1 ∉ st.installed_tools ∧ (p.1, noToolchainMsg) ∈ st.errors.tool_errors := by
  intro components env e hrej hsetup hrust hnodup
  obtain ⟨pre1, pre2, pre3, pre4, pre5, pre6⟩ := preSteps_spec env
  obtain ⟨e1, e2, e3, e4, e5, e6, e7⟩ :=
    install_tools_spec env false (split_components components).2 (preSteps env)
  obtain ⟨r1, r2, r3, r4, r5⟩ :=
    install_rust_spec env
      (install_tools_ env false (split_components components).2 (preSteps env))
  obtain ⟨l1, l2, l3, l4, l5, l6, l7⟩ :=
    install_tools_spec env true (split_components components).2
      (install_rust env
        (install_tools_ env false (split_components components).2 (preSteps env)))
  have hTCearly :
      (install_tools_ env false (split_components components).2
        (preSteps env)).toolchain_is_installed = false := by
    rw [e2, pre3]
  have hTCrust :
      (install_rust env (install_tools_ env false (split_components components).2
        (preSteps env))).toolchain_is_installed = false := by
    rw [(r4 e hrust).2, hTCearly]
  obtain ⟨hInst, hErr⟩ := l6 rfl hTCrust
  refine ⟨install_tools_ env true (split_components components).2
      (install_rust env
        (install_tools_ env false (split_components components).2 (preSteps env))),
    ?_, ?_, ?_⟩
  · simp only [install, hrej, hsetup]
  · rw [l1, (r4 e hrust).1]
  · intro p hp hreq
    refine ⟨?_, hErr p hp hreq⟩
    rw [hInst, r2]
    intro hmem
    rcases e7 p.1 hmem with hin | ⟨q, hq, hqn, hqreq⟩
    · rw [pre4] at hin
      exact absurd hin (List.not_mem_nil _)
    · have hq' : (p.1, q.2) ∈ (split_components components).2 := by
        have hqe : q = (p.1, q.2) := Prod.ext hqn rfl
        rw [← hqe]
        exact hq
      have hp' : (p.1, p.2) ∈ (split_components components).2 := by
        have hpe : p = (p.1, p.2) := Prod.ext rfl rfl
        rw [← hpe]
        exact hp
      have heq : q.2 = p.2 := keysNodup_inj hnodup hq' hp'
      rw [heq] at hqreq
      rw [hqreq] at hreq
      exact absurd hreq (by simp)

/-- C3 witness: the same mixed selection with only the toolchain failing:
the run returns `Ok`, the aggregate carries the rust entry, and the cargo
tool `c` is skipped with a per-tool error. -/
theorem c3_witness :
    ∃ st, install rustFailEnv compsMixed = .ok st ∧
      st.errors.rust_error = some "rustup exited with code 1" ∧
      ∀ p ∈ (split_components compsMixed).2, requiresToolchain p.2 = true →
        p.1 ∉ st.installed_tools ∧ (p.1, noToolchainMsg) ∈ st.errors.tool_errors :=
  c3_rust_failure_disables_late_phase compsMixed rustFailEnv "rustup exited with code 1"
    rfl rfl rfl (by decide)

end Rim
